import Mathlib

/-!
Verification development for the question-answering / constrained-generation
scripts of this repository (`pracownia_1/c.py`, `pracownia_1/d.py`,
`pracownia_2/main.py`, `test.py`, `zad_1.py`).

Text is modelled as `List Char`.  External model adapters (the masked-LM
fill-mask pipeline, the causal LM, the tokenizer and Python's `eval`) are
modelled as oracle parameters, since they are external collaborators of the
code under study; everything the repository's own code computes is embedded
concretely.  Python floats are modelled as exact rationals (`ℚ`).
-/

namespace Spec2Proof

/-- Characters treated as whitespace by the `str.strip` / regex `\s`
operations used in the repository (the ASCII whitespace set). -/
def isWS (c : Char) : Bool :=
  c = ' ' || c = '\t' || c = '\n' || c = '\r' || c = '\x0b' || c = '\x0c'

/-- Lowercasing as performed by `str.lower` / `re.I`, covering ASCII plus the
Polish uppercase letters that occur in the repository's patterns. -/
def toLowerPl (c : Char) : Char :=
  if c.isUpper then c.toLower
  else if c = 'Ą' then 'ą' else if c = 'Ć' then 'ć' else if c = 'Ę' then 'ę'
  else if c = 'Ł' then 'ł' else if c = 'Ń' then 'ń' else if c = 'Ó' then 'ó'
  else if c = 'Ś' then 'ś' else if c = 'Ź' then 'ź' else if c = 'Ż' then 'ż'
  else c

/-- Python `str.rstrip`. -/
def rstrip (l : List Char) : List Char := ((l.reverse).dropWhile isWS).reverse

/-- Python `str.strip`. -/
def pyStrip (l : List Char) : List Char := rstrip (l.dropWhile isWS)

/-- Helper for `collapseWS`; the flag records whether the previous character
was inside a whitespace run already emitted as a single space. -/
def collapseWSAux : List Char → Bool → List Char
  | [], _ => []
  | c :: rest, inRun =>
    if isWS c then
      (if inRun then collapseWSAux rest true else ' ' :: collapseWSAux rest true)
    else c :: collapseWSAux rest false

/-- One pass of `re.sub(r"\s+", " ", s)`: each maximal whitespace run becomes
a single space. -/
def collapseWS (l : List Char) : List Char := collapseWSAux l false

/-- `normalize_whitespace` from `pracownia_1/c.py` and `pracownia_1/d.py`:
collapse whitespace runs, then strip. -/
def normalizeWS (l : List Char) : List Char := pyStrip (collapseWS l)

/-! ### Arithmetic heuristic (`try_arithmetic`, identical in `c.py` and `d.py`) -/

/-- The alternatives of `ARITH_RE = ^(ile to|policz|oblicz|jaki jest wynik)[:\s]*`. -/
def triggers : List (List Char) :=
  ["ile to".data, "policz".data, "oblicz".data, "jaki jest wynik".data]

/-- Anchored match of `ARITH_RE` followed by `ARITH_RE.sub("", s)`: if a
trigger phrase is a prefix, drop it together with the following run of `:`
and whitespace. -/
def matchTrigger (s : List Char) : Option (List Char) :=
  (triggers.find? (fun t => t.isPrefixOf s)).map
    (fun t => (s.drop t.length).dropWhile (fun c => isWS c || c = ':'))

/-- `re.sub(r"[?]$", "", s)`: remove a single trailing question mark. -/
def stripTrailingQ (l : List Char) : List Char :=
  if l.getLast? = some '?' then l.dropLast else l

/-- Maximal-munch parse of `\d+(\.\d+)?`, returning the matched characters and
the remainder (backtracking never helps this pattern, so maximal munch is
equivalent to Python's greedy semantics here). -/
def parseNum (l : List Char) : Option (List Char × List Char) :=
  match l.takeWhile Char.isDigit, l.dropWhile Char.isDigit with
  | [], _ => none
  | ds, rest =>
    match rest with
    | '.' :: r2 =>
      match r2.takeWhile Char.isDigit, r2.dropWhile Char.isDigit with
      | [], _ => some (ds, rest)
      | fs, r3 => some (ds ++ '.' :: fs, r3)
    | _ => some (ds, rest)

/-- Attempt the percentage pattern `(\d+(\.\d+)?)\s*%\s*z\s*(\d+(\.\d+)?)`
at the head of the string, returning the two number literals and the rest. -/
def matchPct (l : List Char) : Option (List Char × List Char × List Char) := do
  let (a, r1) ← parseNum l
  match r1.dropWhile isWS with
  | '%' :: r3 =>
    match r3.dropWhile isWS with
    | 'z' :: r5 =>
      let (b, r7) ← parseNum (r5.dropWhile isWS)
      some (a, b, r7)
    | _ => none
  | _ => none

/-- `re.search` for the percentage pattern: leftmost match, returning the
text before the match together with the match data. -/
def pctSearch : List Char → Option (List Char × (List Char × List Char × List Char))
  | [] => none
  | c :: rest =>
    match matchPct (c :: rest) with
    | some m => some ([], m)
    | none =>
      match pctSearch rest with
      | some (pre, m) => some (c :: pre, m)
      | none => none

/-- Value of a digit run. -/
def digitsToNat (l : List Char) : ℕ := l.foldl (fun n c => 10 * n + (c.toNat - 48)) 0

/-- `float(...)` of a decimal literal `\d+(\.\d+)?`, as an exact rational. -/
def parseDec (l : List Char) : ℚ :=
  let ip := l.takeWhile (fun c => c ≠ '.')
  match l.dropWhile (fun c => c ≠ '.') with
  | [] => (digitsToNat ip : ℚ)
  | _ :: fp => (digitsToNat ip : ℚ) + (digitsToNat fp : ℚ) / (10 : ℚ) ^ fp.length

/-- The percentage rewrite `"a% z b" -> str((a/100)*b)`.  `fmt` embeds
Python's `str` on the computed float; the development quantifies over it. -/
def pctRewrite (fmt : ℚ → List Char) (s : List Char) : List Char :=
  match pctSearch s with
  | none => s
  | some (pre, (a, b, rest)) => pre ++ fmt ((parseDec a / 100) * parseDec b) ++ rest

/-- The character class of `SAFE_EXPR_RE = ^[0-9\s+\-*/().,%]+$` (whitespace
is handled separately by `isWS`). -/
def safeChars : List Char := "0123456789+-*/().,%".data

/-- `SAFE_EXPR_RE.match(expr)`: nonempty and every character in the whitelist. -/
def safeExpr (l : List Char) : Bool :=
  !l.isEmpty && l.all (fun c => isWS c || safeChars.contains c)

/-- The expression `try_arithmetic` builds before the whitelist check:
lowercase, strip, drop a trailing `?`, require and remove a trigger phrase,
normalize decimal separators, apply the percentage rewrite, remove whitespace.
Returns `none` when no trigger phrase matches. -/
def arithExpr (fmt : ℚ → List Char) (q : List Char) : Option (List Char) :=
  match matchTrigger (stripTrailingQ (pyStrip (q.map toLowerPl))) with
  | none => none
  | some rest =>
    some (((pctRewrite fmt (rest.map (fun c => if c = ',' then '.' else c))).filter
      (fun c => !isWS c)))

/-- `try_arithmetic` (`c.py` lines 52-83, `d.py` lines 55-80).  `evalO` embeds
the sandboxed `eval(expr, ("__builtins__" ↦ empty), ())` together with the
result formatting: it is a pure function of the expression text alone —
mirroring that the evaluation has no access to surrounding names or builtins —
and returns `none` when the evaluation raises. -/
def tryArithmetic (fmt : ℚ → List Char) (evalO : List Char → Option (List Char))
    (q : List Char) : Option (List Char) :=
  match arithExpr fmt q with
  | none => none
  | some e => if safeExpr e then evalO e else none

/-- C8: for every triggered input, if the processed expression contains a
character outside the whitelist of digits, operators, parentheses, percent,
comma/period and whitespace, or if the sandboxed evaluation fails, then
`try_arithmetic` returns the no-match value `none` (and, being a total Lean
function, never raises). -/
theorem tryArithmetic_rejects (fmt : ℚ → List Char)
    (evalO : List Char → Option (List Char)) (q e : List Char)
    (he : arithExpr fmt q = some e)
    (hbad : safeExpr e = false ∨ evalO e = none) :
    tryArithmetic fmt evalO q = none := by
  unfold tryArithmetic
  rw [he]
  rcases hbad with hb | hb
  · simp [hb]
  · rcases hsafe : safeExpr e with _ | _ <;> simp [hsafe, hb]

/-- Witness for C8 at the concrete question `"ile to 2+a?"`, whose remaining
expression `"2+a"` fails the whitelist. -/
theorem tryArithmetic_rejects_witness :
    arithExpr (fun _ => []) ("ile to 2+a?").data = some ("2+a").data ∧
      tryArithmetic (fun _ => []) (fun _ => none) ("ile to 2+a?").data = none := by
  refine ⟨by decide, tryArithmetic_rejects _ _ _ (("2+a").data) (by decide) (Or.inl (by decide))⟩

/-! ### Batch answering (`sort_questions`, `Router.answer_many`, `d.py`) -/

/-- Codepoint-lexicographic `≤` on strings, as used by Python's `sorted`. -/
def lexLeB : List Char → List Char → Bool
  | [], _ => true
  | _ :: _, [] => false
  | a :: as, b :: bs => decide (a < b) || (a == b && lexLeB as bs)

theorem lexLeB_total : ∀ a b : List Char, lexLeB a b = true ∨ lexLeB b a = true := by
  intro a
  induction a with
  | nil => intro b; left; rfl
  | cons x xs ih =>
    intro b
    cases b with
    | nil => right; rfl
    | cons y ys =>
      rcases lt_trichotomy x y with h | h | h
      · left; simp [lexLeB, h]
      · subst h
        rcases ih ys with h2 | h2
        · left; simp [lexLeB, h2]
        · right; simp [lexLeB, h2]
      · right; simp [lexLeB, h]

theorem lexLeB_trans : ∀ a b c : List Char,
    lexLeB a b = true → lexLeB b c = true → lexLeB a c = true := by
  intro a
  induction a with
  | nil => intro b c _ _; rfl
  | cons x xs ih =>
    intro b c hab hbc
    cases b with
    | nil => simp [lexLeB] at hab
    | cons y ys =>
      cases c with
      | nil => simp [lexLeB] at hbc
      | cons z zs =>
        simp only [lexLeB, Bool.or_eq_true, Bool.and_eq_true, decide_eq_true_eq,
          beq_iff_eq] at hab hbc ⊢
        rcases hab with h1 | ⟨h1, h1'⟩
        · rcases hbc with h2 | ⟨h2, _⟩
          · exact Or.inl (h1.trans h2)
          · exact Or.inl (h2 ▸ h1)
        · subst h1
          rcases hbc with h2 | ⟨h2, h2'⟩
          · exact Or.inl h2
          · exact Or.inr ⟨h2, ih ys zs h1' h2'⟩

theorem lexLeB_antisymm : ∀ a b : List Char,
    lexLeB a b = true → lexLeB b a = true → a = b := by
  intro a
  induction a with
  | nil =>
    intro b _ hba
    cases b with
    | nil => rfl
    | cons y ys => simp [lexLeB] at hba
  | cons x xs ih =>
    intro b hab hba
    cases b with
    | nil => simp [lexLeB] at hab
    | cons y ys =>
      simp only [lexLeB, Bool.or_eq_true, Bool.and_eq_true, decide_eq_true_eq,
        beq_iff_eq] at hab hba
      rcases hab with h1 | ⟨h1, h1'⟩
      · rcases hba with h2 | ⟨h2, _⟩
        · exact absurd (h1.trans h2) (lt_irrefl x)
        · exact absurd (h2 ▸ h1) (lt_irrefl x)
      · subst h1
        rcases hba with h2 | ⟨_, h2'⟩
        · exact absurd h2 (lt_irrefl x)
        · rw [ih ys h1' h2']

/-- The sort key relation of `sorted` on question strings. -/
def lexLe (a b : List Char) : Prop := lexLeB a b = true

instance : DecidableRel lexLe := fun a b => inferInstanceAs (Decidable (lexLeB a b = true))

instance : IsTotal (List Char) lexLe := ⟨lexLeB_total⟩

instance : IsTrans (List Char) lexLe := ⟨fun a b c => lexLeB_trans a b c⟩

instance : IsAntisymm (List Char) lexLe := ⟨fun a b => lexLeB_antisymm a b⟩

/-- `sort_questions` (`d.py` lines 48-49): strip each question, keep the
non-empty ones, sort them (Python's `sorted`, modelled by insertion sort —
extensionally equal on a total order). -/
def sortQuestions (qs : List (List Char)) : List (List Char) :=
  List.insertionSort lexLe ((qs.map pyStrip).filter (fun q => !q.isEmpty))

/-- The diagnostic answer `f"[błąd: (e)]"` recorded when `answer_one` raises. -/
def diagAnswer (e : List Char) : List Char := ("[błąd: ").data ++ e ++ ("]").data

/-- The `try/except` body of the `answer_many` loop. -/
def answerOrDiag (ans : List Char → Except (List Char) (List Char))
    (q : List Char) : List Char :=
  match ans q with
  | Except.ok a => a
  | Except.error e => diagAnswer e

/-- `Router.answer_many` (`d.py` lines 325-335) over an abstract per-question
answerer `ans`; `Except.error e` models `answer_one` raising an exception
with message `e` (adapter failures are external to the router's own code). -/
def answerManyWith (ans : List Char → Except (List Char) (List Char))
    (qs : List (List Char)) : List (List Char × List Char) :=
  (sortQuestions qs).foldl (fun out q => out ++ [(q, answerOrDiag ans q)]) []

theorem foldl_append_pairs (f : List Char → List Char) (l : List (List Char))
    (acc : List (List Char × List Char)) :
    l.foldl (fun out q => out ++ [(q, f q)]) acc = acc ++ l.map (fun q => (q, f q)) := by
  induction l generalizing acc with
  | nil => simp
  | cons x xs ih => simp [ih, List.append_assoc]

theorem answerManyWith_eq_map (ans : List Char → Except (List Char) (List Char))
    (qs : List (List Char)) :
    answerManyWith ans qs = (sortQuestions qs).map (fun q => (q, answerOrDiag ans q)) := by
  unfold answerManyWith
  rw [foldl_append_pairs]
  rfl

/-- C4: `answer_many` returns one `(question, answer)` pair for every
non-empty input question; an exception while answering a question is caught
per-question and that question's answer becomes the diagnostic string
embedding the error detail, while every other question is answered normally,
so N non-empty questions always yield N pairs. -/
theorem answerMany_robust (ans : List Char → Except (List Char) (List Char))
    (qs : List (List Char)) :
    (answerManyWith ans qs).length = qs.countP (fun q => !(pyStrip q).isEmpty) ∧
    ∀ q ∈ sortQuestions qs,
      (∀ e, ans q = Except.error e → (q, diagAnswer e) ∈ answerManyWith ans qs) ∧
      (∀ a, ans q = Except.ok a → (q, a) ∈ answerManyWith ans qs) := by
  constructor
  · rw [answerManyWith_eq_map, List.length_map]
    unfold sortQuestions
    rw [(List.perm_insertionSort lexLe _).length_eq, ← List.countP_eq_length_filter,
      List.countP_map]
    rfl
  · intro q hq
    constructor
    · intro e he
      rw [answerManyWith_eq_map]
      have : (q, answerOrDiag ans q) ∈ (sortQuestions qs).map (fun q => (q, answerOrDiag ans q)) :=
        List.mem_map_of_mem _ hq
      simpa [answerOrDiag, he] using this
    · intro a ha
      rw [answerManyWith_eq_map]
      have : (q, answerOrDiag ans q) ∈ (sortQuestions qs).map (fun q => (q, answerOrDiag ans q)) :=
        List.mem_map_of_mem _ hq
      simpa [answerOrDiag, ha] using this

/-- Witness for C4: four raw questions (one empty), the answerer raising on
`"a"`; three pairs come out, the failing question carries the diagnostic. -/
theorem answerMany_robust_witness :
    (answerManyWith
        (fun q => if q == ("a").data then Except.error ("boom").data else Except.ok ("ok").data)
        [("b").data, ("a").data, [], (" c ").data]).length = 3 ∧
      (("a").data, diagAnswer ("boom").data) ∈
        answerManyWith
          (fun q => if q == ("a").data then Except.error ("boom").data else Except.ok ("ok").data)
          [("b").data, ("a").data, [], (" c ").data] := by
  have h := answerMany_robust
    (fun q => if q == ("a").data then Except.error ("boom").data else Except.ok ("ok").data)
    [("b").data, ("a").data, [], (" c ").data]
  refine ⟨h.1.trans (by decide), ?_⟩
  exact ((h.2 (("a").data) (by decide)).1 (("boom").data) rfl)

/-- C9: batch answering is invariant under permutation of the input
questions — the output pairs appear in the deterministic lexicographic order
of the stripped questions, not arrival order, so permuted inputs produce
identical outputs. -/
theorem answerMany_perm_invariant (ans : List Char → Except (List Char) (List Char))
    (qs₁ qs₂ : List (List Char)) (h : qs₁.Perm qs₂) :
    answerManyWith ans qs₁ = answerManyWith ans qs₂ ∧
    List.Sorted lexLe ((answerManyWith ans qs₁).map Prod.fst) ∧
    (answerManyWith ans qs₁).map Prod.fst = sortQuestions qs₁ := by
  have hfil : ((qs₁.map pyStrip).filter (fun q => !q.isEmpty)).Perm
      ((qs₂.map pyStrip).filter (fun q => !q.isEmpty)) := (h.map pyStrip).filter _
  have hsort : sortQuestions qs₁ = sortQuestions qs₂ := by
    refine List.eq_of_perm_of_sorted
      ((List.perm_insertionSort lexLe _).trans
        (hfil.trans (List.perm_insertionSort lexLe _).symm))
      (List.sorted_insertionSort lexLe _) (List.sorted_insertionSort lexLe _)
  have hmapfst : (answerManyWith ans qs₁).map Prod.fst = sortQuestions qs₁ := by
    rw [answerManyWith_eq_map, List.map_map]
    have hc : (Prod.fst ∘ fun q => (q, answerOrDiag ans q)) = id := rfl
    rw [hc, List.map_id]
  refine ⟨?_, ?_, hmapfst⟩
  · unfold answerManyWith
    rw [hsort]
  · rw [hmapfst]
    exact List.sorted_insertionSort lexLe _

/-- Witness for C9 at two concrete permuted batches. -/
theorem answerMany_perm_invariant_witness :
    answerManyWith (fun q => Except.ok q) [("b").data, ("a").data] =
      answerManyWith (fun q => Except.ok q) [("a").data, ("b").data] ∧
    List.Sorted lexLe
      ((answerManyWith (fun q => Except.ok q) [("b").data, ("a").data]).map Prod.fst) := by
  have h := answerMany_perm_invariant (fun q => Except.ok q)
    [("b").data, ("a").data] [("a").data, ("b").data] (by decide)
  exact ⟨h.1, h.2.1⟩

/-! ### Pseudo-log-likelihood (`MaskedLMEngine.pll` in `d.py` lines 129-146,
`PLLEncoder.pll` in `c.py` lines 154-172 — the same computation) -/

/-- `masked = input_ids.clone(); masked[i] = mask_token_id`. -/
def maskAt (ids : List ℕ) (i : ℕ) (maskId : ℕ) : List ℕ := ids.set i maskId

/-- One iteration of the `pll` loop; the accumulator is
`(log_prob_sum, count)`.  `oracle masked i t` embeds
`model(masked).logits[0, i].log_softmax(-1)[t]`; `attn` is the attention
mask (`continue` when zero). -/
def pllStep (oracle : List ℕ → ℕ → ℕ → ℚ) (maskId : ℕ) (ids : List ℕ) (attn : ℕ → Bool)
    (acc : ℚ × ℕ) (i : ℕ) : ℚ × ℕ :=
  if attn i then (acc.1 + oracle (maskAt ids i maskId) i (ids.getD i 0), acc.2 + 1) else acc

/-- `pll(text)`: loop `i` over `range(1, len(input_ids) - 1)`, mask position
`i`, accumulate the log-probability of the original token, and divide by
`max(count, 1)`. -/
def pll (oracle : List ℕ → ℕ → ℕ → ℚ) (maskId : ℕ) (ids : List ℕ) (attn : ℕ → Bool) : ℚ :=
  let r := (List.range' 1 (ids.length - 2)).foldl (pllStep oracle maskId ids attn) (0, 0)
  r.1 / ((max r.2 1 : ℕ) : ℚ)

theorem pll_foldl (oracle : List ℕ → ℕ → ℕ → ℚ) (maskId : ℕ) (ids : List ℕ)
    (attn : ℕ → Bool) (hattn : ∀ i, attn i = true) :
    ∀ (l : List ℕ) (s : ℚ) (k : ℕ),
      l.foldl (pllStep oracle maskId ids attn) (s, k) =
        (s + (l.map (fun i => oracle (maskAt ids i maskId) i (ids.getD i 0))).sum,
          k + l.length) := by
  intro l
  induction l with
  | nil => intro s k; simp
  | cons x xs ih =>
    intro s k
    simp only [List.foldl_cons, pllStep, hattn x, if_true, ih, List.map_cons, List.sum_cons,
      List.length_cons]
    simp only [Prod.mk.injEq]
    exact ⟨by ring, by omega⟩

/-- C5: `pll` returns the arithmetic mean — not the sum — of the
per-position log-probabilities of the original tokens over every position
except the first and the last, with the divisor floored at 1; a sentence
with fewer than 3 tokens involves zero comparisons and yields `0` with no
division by zero. -/
theorem pll_is_mean (oracle : List ℕ → ℕ → ℕ → ℚ) (maskId : ℕ) (ids : List ℕ)
    (attn : ℕ → Bool) :
    (ids.length < 3 → pll oracle maskId ids attn = 0) ∧
    ((∀ i, attn i = true) →
      pll oracle maskId ids attn =
        ((List.range' 1 (ids.length - 2)).map
          (fun i => oracle (maskAt ids i maskId) i (ids.getD i 0))).sum /
          ((max (ids.length - 2) 1 : ℕ) : ℚ)) := by
  constructor
  · intro h
    have hz : ids.length - 2 = 0 := by omega
    simp [pll, hz]
  · intro hattn
    unfold pll
    rw [pll_foldl oracle maskId ids attn hattn]
    simp

/-- Witness for C5: a 2-token sentence scores `0`; on a 4-token sentence with
a constant oracle the score is the mean `(5 + 5) / 2 = 5` of the two interior
positions. -/
theorem pll_is_mean_witness :
    pll (fun _ _ _ => (5 : ℚ)) 0 [7, 8] (fun _ => true) = 0 ∧
    pll (fun _ _ _ => (5 : ℚ)) 0 [1, 2, 3, 4] (fun _ => true) = 5 := by
  constructor
  · exact (pll_is_mean (fun _ _ _ => (5 : ℚ)) 0 [7, 8] (fun _ => true)).1 (by decide)
  · rw [(pll_is_mean (fun _ _ _ => (5 : ℚ)) 0 [1, 2, 3, 4] (fun _ => true)).2 (fun _ => rfl)]
    norm_num [List.range']

/-! ### Continuation log-probability (`continuation_logprob`, `test.py`
lines 20-58) -/

/-- One step of the teacher-forcing loop in `continuation_logprob`: the state
is `(cur_input, logp_sum)`; the true continuation token is scored against the
model's next-token distribution for `cur_input`, then appended.  `oracle cur t`
embeds `F.log_softmax(model(cur_input).logits[:, -1, :])[t]`. -/
def clpStep (oracle : List ℕ → ℕ → ℚ) (st : List ℕ × ℚ) (tok : ℕ) : List ℕ × ℚ :=
  (st.1 ++ [tok], st.2 + oracle st.1 tok)

/-- `continuation_logprob(prefix_text, continuation_text)`: the prefix and
the continuation are tokenized independently (`add_special_tokens=False`, the
same tokenizer applied to each text alone, so no boundary tokens are added),
and the per-token log-probabilities of the actual continuation tokens are
accumulated autoregressively starting from the prefix tokens. -/
def continuationLogprob (oracle : List ℕ → ℕ → ℚ) (tok : List Char → List ℕ)
    (prefixText contText : List Char) : ℚ :=
  ((tok contText).foldl (clpStep oracle) (tok prefixText, 0)).2

theorem clp_foldl (oracle : List ℕ → ℕ → ℚ) :
    ∀ (l cur : List ℕ) (s : ℚ),
      (l.foldl (clpStep oracle) (cur, s)).2 =
        s + ∑ i ∈ Finset.range l.length, oracle (cur ++ l.take i) (l.getD i 0) := by
  intro l
  induction l with
  | nil => intro cur s; simp
  | cons t ts ih =>
    intro cur s
    simp only [List.foldl_cons, clpStep, ih, List.length_cons]
    rw [Finset.sum_range_succ']
    simp only [List.take_succ_cons, List.getD_cons_succ, List.getD_cons_zero, List.take_zero,
      List.append_nil, List.append_assoc, List.singleton_append]
    ring

/-- C7: `continuation_logprob` equals the sum — not the mean — over the
continuation tokens of the log-probability the causal model assigns to each
actual next continuation token given the prefix plus the already-confirmed
continuation tokens so far (teacher forcing), with prefix and continuation
tokenized independently. -/
theorem continuationLogprob_is_sum (oracle : List ℕ → ℕ → ℚ) (tok : List Char → List ℕ)
    (prefixText contText : List Char) :
    continuationLogprob oracle tok prefixText contText =
      ∑ i ∈ Finset.range (tok contText).length,
        oracle (tok prefixText ++ (tok contText).take i) ((tok contText).getD i 0) := by
  unfold continuationLogprob
  rw [clp_foldl]
  ring

/-! ### Candidate scoring (`zad_1.py`: `repetition_ratio` lines 54-60,
`jaccard_sim` lines 62-68, `score_candidate` lines 70-81) -/

/-- Python regex `\\w`: alphanumerics, underscore, plus the Polish letters
occurring in the repository's texts. -/
def isWordChar (c : Char) : Bool :=
  c.isAlphanum || c = '_' || ("ąćęłńóśźżĄĆĘŁŃÓŚŹŻ").data.contains c

/-- Helper for `findWords`; `acc` holds the reversed current word run. -/
def findWordsAux : List Char → List Char → List (List Char)
  | [], acc => if acc.isEmpty then [] else [acc.reverse]
  | c :: rest, acc =>
    if isWordChar c then findWordsAux rest (c :: acc)
    else if acc.isEmpty then findWordsAux rest [] else acc.reverse :: findWordsAux rest []

/-- `re.findall(r"\\w+", text)`: the maximal runs of word characters. -/
def findWords (l : List Char) : List (List Char) := findWordsAux l []

/-- The token list `_re.findall(r"\\w+", text.lower())`. -/
def wordTokens (text : List Char) : List (List Char) := findWords (text.map toLowerPl)

/-- Python division, which raises `ZeroDivisionError` on a zero divisor:
`none` models the raise. -/
def pyDiv (a b : ℚ) : Option ℚ := if b = 0 then none else some (a / b)

/-- `repetition_ratio(text)`: type/token ratio of the word tokens, `1.0`
when there are no tokens. -/
def repetitionRatio (text : List Char) : Option ℚ :=
  let tokens := wordTokens text
  if tokens.isEmpty then some 1
  else pyDiv (tokens.dedup.length : ℚ) (tokens.length : ℚ)

/-- `jaccard_sim(a, b)`: Jaccard similarity of the lowercase token sets,
`0.0` when either set is empty. -/
def jaccardSim (a b : List Char) : Option ℚ :=
  let A := (wordTokens a).toFinset
  let B := (wordTokens b).toFinset
  if A = ∅ ∨ B = ∅ then some 0
  else pyDiv ((A ∩ B).card : ℚ) ((A ∪ B).card : ℚ)

/-- `re.search(r"[.?!]$", txt)`: the last character is sentence-final
punctuation. -/
def endsPunct (l : List Char) : Bool :=
  match l.getLast? with
  | some c => c = '.' || c = '?' || c = '!'
  | none => false

/-- Python `seg in l` substring containment. -/
def containsSeg (seg : List Char) : List Char → Bool
  | [] => seg.isEmpty
  | c :: rest => seg.isPrefixOf (c :: rest) || containsSeg seg rest

/-- `score_candidate(user_utterance, candidate)`: length window bonus and
over-length penalty, repetition (type/token) term, termination bonus,
topical Jaccard overlap with the reference utterance, and role-leakage
penalty, summed into one scalar.  The `Option` layer records that any
Python division-by-zero would raise. -/
def scoreCandidate (userUtterance candidate : List Char) : Option ℚ := do
  let txt := pyStrip candidate
  let lenScore : ℚ := -(2/1000 : ℚ) * max 0 ((txt.length : ℚ) - 120) +
    (if 25 ≤ txt.length ∧ txt.length ≤ 160 then (2/10 : ℚ) else 0)
  let rep ← repetitionRatio txt
  let repScore : ℚ := (6/10 : ℚ) * rep
  let endScore : ℚ := if endsPunct txt then 2/10 else 0
  let jac ← jaccardSim userUtterance txt
  let topicScore : ℚ := (6/10 : ℚ) * jac
  let rolePenalty : ℚ :=
    if containsSeg (("USER:").data) txt || containsSeg (("BOT:").data) (txt.drop 5)
    then -(5/10) else 0
  some (lenScore + repScore + endScore + topicScore + rolePenalty)

theorem repetitionRatio_isSome (t : List Char) : ∃ r, repetitionRatio t = some r := by
  unfold repetitionRatio
  by_cases h : (wordTokens t).isEmpty
  · exact ⟨1, by simp [h]⟩
  · refine ⟨((wordTokens t).dedup.length : ℚ) / ((wordTokens t).length : ℚ), ?_⟩
    have hne : ((wordTokens t).length : ℚ) ≠ 0 := by
      simp only [ne_eq, Nat.cast_eq_zero, List.length_eq_zero]
      intro hz
      rw [hz] at h
      simp at h
    simp [h, pyDiv, hne]

theorem jaccardSim_guard (a b : List Char)
    (h : (wordTokens a).toFinset = ∅ ∨ (wordTokens b).toFinset = ∅) :
    jaccardSim a b = some 0 := by
  simp only [jaccardSim]
  rw [if_pos h]

theorem jaccardSim_isSome (a b : List Char) : ∃ r, jaccardSim a b = some r := by
  by_cases h : (wordTokens a).toFinset = ∅ ∨ (wordTokens b).toFinset = ∅
  · exact ⟨0, jaccardSim_guard a b h⟩
  · have h' := h
    push_neg at h'
    have hne : ((((wordTokens a).toFinset ∪ (wordTokens b).toFinset).card : ℕ) : ℚ) ≠ 0 := by
      simp only [ne_eq, Nat.cast_eq_zero, Finset.card_eq_zero, Finset.union_eq_empty]
      intro hz
      exact h'.1 hz.1
    refine ⟨(((wordTokens a).toFinset ∩ (wordTokens b).toFinset).card : ℚ) /
      (((wordTokens a).toFinset ∪ (wordTokens b).toFinset).card : ℚ), ?_⟩
    simp only [jaccardSim]
    rw [if_neg h]
    unfold pyDiv
    rw [if_neg hne]
  
/-- C10: `score_candidate` always returns a value — no division by zero and
hence no non-finite score can arise: `repetition_ratio` is `1.0` on a
candidate with no word tokens, `jaccard_sim` is `0.0` when either token set
is empty, and in all other cases the divisors are nonzero. -/
theorem scoreCandidate_total (u c : List Char) :
    (scoreCandidate u c).isSome = true ∧
    (∀ t, wordTokens t = [] → repetitionRatio t = some 1) ∧
    (∀ a b, (wordTokens a).toFinset = ∅ ∨ (wordTokens b).toFinset = ∅ →
      jaccardSim a b = some 0) := by
  refine ⟨?_, ?_, ?_⟩
  · obtain ⟨r, hr⟩ := repetitionRatio_isSome (pyStrip c)
    obtain ⟨j, hj⟩ := jaccardSim_isSome u (pyStrip c)
    simp [scoreCandidate, hr, hj]
  · intro t ht
    simp [repetitionRatio, ht]
  · intro a b hab
    exact jaccardSim_guard a b hab

/-- Witness for C10 at the empty reference and empty candidate. -/
theorem scoreCandidate_total_witness :
    (scoreCandidate [] []).isSome = true ∧ repetitionRatio [] = some 1 ∧
      jaccardSim [] [] = some 0 := by
  have h := scoreCandidate_total [] []
  exact ⟨h.1, h.2.1 [] rfl, h.2.2 [] [] (Or.inl (by rfl))⟩

/-! ### Nucleus (top-p) truncation (`pracownia_2/main.py` lines 61-74).

Lines 62-68 sort the (post-top-k) logits descending, take softmax, compute
`cumulative = torch.cumsum(probs)`, find `cutoff = (cumulative > TOP_P).nonzero()`
and erase every sorted position after `cutoff[0]`.  The functions below embed
that step as a function of the descending probability vector. -/

/-- Sum of the first `n` probabilities (an entry of `torch.cumsum`). -/
def sumTake (n : ℕ) (ps : List ℚ) : ℚ := (ps.take n).sum

/-- Scan of the cumulative sums: number of sorted positions kept by
`sorted_logits[first_index + 1:] = -float("inf")` — one past the first
position whose cumulative probability exceeds `p`, or the whole vector when
no cumulative sum exceeds `p` (`len(cutoff) == 0`). -/
def keptAux (p : ℚ) (acc : ℚ) : List ℚ → ℕ
  | [] => 0
  | q :: rest => if p < acc + q then 1 else 1 + keptAux p (acc + q) rest

/-- Number of tokens surviving the top-p truncation. -/
def keptCount (p : ℚ) (ps : List ℚ) : ℕ := keptAux p 0 ps

theorem keptAux_sum_gt (p : ℚ) :
    ∀ (l : List ℚ) (acc : ℚ), p < acc + l.sum →
      p < acc + sumTake (keptAux p acc l) l := by
  intro l
  induction l with
  | nil => intro acc h; simpa [sumTake] using h
  | cons q rest ih =>
    intro acc h
    by_cases h0 : p < acc + q
    · simp only [keptAux, h0, if_true, sumTake, List.take_succ_cons, List.take_zero,
        List.sum_cons, List.sum_nil]
      linarith
    · simp only [keptAux, h0, if_false]
      have h' : p < (acc + q) + rest.sum := by
        rw [List.sum_cons] at h
        linarith
      have ht := ih (acc + q) h'
      have hs : sumTake (1 + keptAux p (acc + q) rest) (q :: rest) =
          q + sumTake (keptAux p (acc + q) rest) rest := by
        rw [Nat.add_comm]
        simp [sumTake, List.take_succ_cons]
      rw [hs]
      linarith

theorem keptAux_prefix_le (p : ℚ) :
    ∀ (l : List ℚ) (acc : ℚ) (j : ℕ), 1 ≤ j → j < keptAux p acc l →
      acc + sumTake j l ≤ p := by
  intro l
  induction l with
  | nil => intro acc j _ hj; simp [keptAux] at hj
  | cons q rest ih =>
    intro acc j hj1 hj
    by_cases h0 : p < acc + q
    · simp [keptAux, h0] at hj
      omega
    · simp only [keptAux, h0, if_false] at hj
      push_neg at h0
      match j, hj1 with
      | 1, _ => simpa [sumTake] using h0
      | (j' + 2), _ =>
        have hj' : j' + 1 < keptAux p (acc + q) rest := by omega
        have := ih (acc + q) (j' + 1) (by omega) hj'
        simp only [sumTake, List.take_succ_cons, List.sum_cons] at *
        linarith [this]

/-- C2 (amended): the kept set is the shortest descending prefix whose
cumulative probability exceeds `p`: its cumulative probability is `> p`
(hence `≥ p`), and every strictly shorter prefix — in particular the kept
set minus its lowest-ranked token — has cumulative probability `≤ p`,
i.e. it no longer exceeds `p` (equality with `p` is possible, so "drops
strictly below `p`" can fail; the one-token case is the instance `j = 0`). -/
theorem topP_minimal_kept (p : ℚ) (ps : List ℚ) (hp : 0 ≤ p) (hsum : p < ps.sum) :
    p < sumTake (keptCount p ps) ps ∧ ∀ j < keptCount p ps, sumTake j ps ≤ p := by
  constructor
  · have := keptAux_sum_gt p ps 0 (by simpa using hsum)
    simpa [keptCount] using this
  · intro j hj
    match j with
    | 0 => simpa [sumTake] using hp
    | (j' + 1) =>
      have := keptAux_prefix_le p ps 0 (j' + 1) (by omega) (by simpa [keptCount] using hj)
      simpa using this

/-- Witness for C2's amended statement on the concrete descending
distribution `[3/5, 2/5]` with `p = 9/10`. -/
theorem topP_minimal_kept_witness :
    keptCount (9/10) [(3 : ℚ)/5, 2/5] = 2 ∧
    (9 : ℚ)/10 < sumTake (keptCount (9/10) [(3 : ℚ)/5, 2/5]) [(3 : ℚ)/5, 2/5] ∧
    sumTake 1 [(3 : ℚ)/5, 2/5] ≤ 9/10 := by
  have h := topP_minimal_kept (9/10) [(3 : ℚ)/5, 2/5] (by norm_num) (by norm_num)
  have hk : keptCount (9/10) [(3 : ℚ)/5, 2/5] = 2 := by
    norm_num [keptCount, keptAux]
  exact ⟨hk, h.1, h.2 1 (by rw [hk]; omega)⟩

theorem sorted_ge_replicate (n : ℕ) (x : ℚ) :
    List.Sorted (fun a b : ℚ => a ≥ b) (List.replicate n x) := by
  induction n with
  | zero => simp
  | succ k ih =>
    rw [List.replicate_succ]
    refine List.sorted_cons.2 ⟨?_, ih⟩
    intro b hb
    rw [List.eq_of_mem_replicate hb]

/-- A reachable post-top-k distribution (40 positive entries, descending,
summing to 1) on which the cumulative sum of the kept set minus its last
token equals `p = 9/10` exactly. -/
def boundaryProbs : List ℚ := (1 : ℚ)/2 :: (2 : ℚ)/5 :: List.replicate 38 ((1 : ℚ)/380)

/-- C2 counterexample: on `boundaryProbs` with `p = 9/10` (the code's
`TOP_P`), three tokens are kept, and removing the lowest-ranked kept token
leaves cumulative probability exactly `9/10` — not strictly below `p`, so
the claim's minimality condition "removing the lowest-ranked kept token
would drop the cumulative probability below p" is false here. -/
theorem topP_strict_minimality_fails :
    boundaryProbs.sum = 1 ∧
    List.Sorted (fun a b : ℚ => a ≥ b) boundaryProbs ∧
    (∀ x ∈ boundaryProbs, 0 < x) ∧
    keptCount (9/10) boundaryProbs = 3 ∧
    sumTake (keptCount (9/10) boundaryProbs - 1) boundaryProbs = 9/10 ∧
    ¬ sumTake (keptCount (9/10) boundaryProbs - 1) boundaryProbs < 9/10 := by
  have hsum : boundaryProbs.sum = 1 := by
    norm_num [boundaryProbs, List.sum_replicate, nsmul_eq_mul]
  have hk : keptCount (9/10) boundaryProbs = 3 := by
    norm_num [boundaryProbs, keptCount, keptAux, List.replicate_succ]
  have htk : sumTake (keptCount (9/10) boundaryProbs - 1) boundaryProbs = 9/10 := by
    rw [hk]
    norm_num [boundaryProbs, sumTake, List.take_succ_cons]
  refine ⟨hsum, ?_, ?_, hk, htk, by rw [htk]; norm_num⟩
  · unfold boundaryProbs
    refine List.sorted_cons.2 ⟨?_, List.sorted_cons.2 ⟨?_, ?_⟩⟩
    · intro b hb
      rcases List.mem_cons.1 hb with h | h
      · rw [h]; norm_num
      · have := List.eq_of_mem_replicate h
        rw [this]; norm_num
    · intro b hb
      have := List.eq_of_mem_replicate hb
      rw [this]; norm_num
    · exact sorted_ge_replicate 38 _
  · intro x hx
    rcases List.mem_cons.1 hx with h | hx2
    · rw [h]; norm_num
    rcases List.mem_cons.1 hx2 with h | h
    · rw [h]; norm_num
    · have := List.eq_of_mem_replicate h
      rw [this]; norm_num

/-! ### Constrained sampling step (`pracownia_2/main.py` lines 26-39 and
42-78).  One decoding step of `sample_sequence`: letter-constraint penalty,
top-k truncation, descending sort, top-p cut, scatter back, softmax.
`E` abstracts the (strictly positive) exponential of the softmax; the
sampler theorems hold for every positive `E`, and `expQ` below is the
concrete positive surrogate used in closed computations. -/

/-- `modify_logits_for_letter_constraint`'s per-token test: the decoded token
string starts a new word (leading space) and after `strip` its first letter
does not case-insensitively match the constraint letter. -/
def isForbidden (decode : ℕ → List Char) (letter : Char) (i : ℕ) : Bool :=
  match decode i with
  | ' ' :: _ =>
    match pyStrip (decode i) with
    | [] => false
    | c :: _ => toLowerPl c != toLowerPl letter
  | _ => false

/-- Loop body of `modify_logits_for_letter_constraint` from token id `i` on:
`logits[tok_id] += forbidden_penalty` with `forbidden_penalty = -20.0`. -/
def modifyAux (decode : ℕ → List Char) (letter : Char) : ℕ → List ℚ → List ℚ
  | _, [] => []
  | i, x :: rest =>
    (if isForbidden decode letter i then x + (-20) else x) :: modifyAux decode letter (i + 1) rest

/-- `modify_logits_for_letter_constraint` (lines 26-39). -/
def modifyLogits (decode : ℕ → List Char) (letter : Char) (logits : List ℚ) : List ℚ :=
  modifyAux decode letter 0 logits

/-- Rational surrogate for `exp`: strictly positive and increasing. -/
def expQ (q : ℚ) : ℚ := if 0 ≤ q then 1 + q else 1 / (1 - q)

theorem expQ_pos (q : ℚ) : 0 < expQ q := by
  unfold expQ
  split
  · linarith
  · have h1 : (0 : ℚ) < 1 - q := by linarith [not_le.1 (by assumption : ¬ 0 ≤ q)]
    positivity

/-- Weight of an entry of a `-inf`-extended logit vector: `exp(-inf) = 0`. -/
def optWeight (E : ℚ → ℚ) : Option ℚ → ℚ
  | none => 0
  | some q => E q

/-- `torch.topk` / `torch.sort(descending=True)` ordering of token indices:
larger logit first, ties broken towards the smaller index. -/
def relQ (vals : ℕ → ℚ) (i j : ℕ) : Prop :=
  vals j < vals i ∨ (vals i = vals j ∧ i ≤ j)

/-- Strict order on `-inf`-extended logits. -/
def optLt : Option ℚ → Option ℚ → Prop
  | none, none => False
  | none, some _ => True
  | some _, none => False
  | some a, some b => a < b

instance instDecOptLt : ∀ a b : Option ℚ, Decidable (optLt a b)
  | none, none => isFalse (fun h => h)
  | none, some _ => isTrue trivial
  | some _, none => isFalse (fun h => h)
  | some a, some b => inferInstanceAs (Decidable (a < b))

/-- The sorting order of line 62, on the `-inf`-extended filtered logits. -/
def relO (fv : ℕ → Option ℚ) (i j : ℕ) : Prop :=
  optLt (fv j) (fv i) ∨ (fv i = fv j ∧ i ≤ j)

instance (vals : ℕ → ℚ) : DecidableRel (relQ vals) := fun i j =>
  inferInstanceAs (Decidable (_ ∨ _))

instance (fv : ℕ → Option ℚ) : DecidableRel (relO fv) := fun i j =>
  inferInstanceAs (Decidable (_ ∨ _))

theorem optLt_trans : ∀ a b c : Option ℚ, optLt a b → optLt b c → optLt a c
  | none, _, some _, _, _ => trivial
  | none, _, none, _, h2 => by
    cases ‹Option ℚ› <;> exact absurd h2 (by intro hh; exact hh)
  | some a, some b, some c, h1, h2 => lt_trans h1 h2
  | some _, none, _, h1, _ => absurd h1 (fun h => h)
  | some _, some _, none, _, h2 => absurd h2 (fun h => h)

theorem optLt_asymm (a b : Option ℚ) (h : optLt a b) : ¬ optLt b a := by
  cases a <;> cases b
  · exact fun hh => hh
  · exact fun hh => hh
  · exact absurd h (fun hh => hh)
  · exact fun hh => absurd (lt_trans h hh) (lt_irrefl _)

theorem optLt_trichotomy (a b : Option ℚ) : optLt a b ∨ a = b ∨ optLt b a := by
  cases a with
  | none =>
    cases b with
    | none => exact Or.inr (Or.inl rfl)
    | some q => exact Or.inl trivial
  | some qa =>
    cases b with
    | none => exact Or.inr (Or.inr trivial)
    | some qb =>
      rcases lt_trichotomy qa qb with h | h | h
      · exact Or.inl h
      · exact Or.inr (Or.inl (by rw [h]))
      · exact Or.inr (Or.inr h)

instance (vals : ℕ → ℚ) : IsTotal ℕ (relQ vals) := by
  constructor
  intro i j
  rcases lt_trichotomy (vals i) (vals j) with h | h | h
  · exact Or.inr (Or.inl h)
  · rcases Nat.le_total i j with hij | hij
    · exact Or.inl (Or.inr ⟨h, hij⟩)
    · exact Or.inr (Or.inr ⟨h.symm, hij⟩)
  · exact Or.inl (Or.inl h)

instance (vals : ℕ → ℚ) : IsTrans ℕ (relQ vals) := by
  constructor
  intro i j k h1 h2
  rcases h1 with h1 | ⟨h1, h1'⟩ <;> rcases h2 with h2 | ⟨h2, h2'⟩
  · exact Or.inl (lt_trans h2 h1)
  · exact Or.inl (h2 ▸ h1)
  · exact Or.inl (h1 ▸ h2)
  · exact Or.inr ⟨h1.trans h2, h1'.trans h2'⟩

instance (fv : ℕ → Option ℚ) : IsTotal ℕ (relO fv) := by
  constructor
  intro i j
  rcases optLt_trichotomy (fv i) (fv j) with h | h | h
  · exact Or.inr (Or.inl h)
  · rcases Nat.le_total i j with hij | hij
    · exact Or.inl (Or.inr ⟨h, hij⟩)
    · exact Or.inr (Or.inr ⟨h.symm, hij⟩)
  · exact Or.inl (Or.inl h)

instance (fv : ℕ → Option ℚ) : IsTrans ℕ (relO fv) := by
  constructor
  intro i j k h1 h2
  rcases h1 with h1 | ⟨h1, h1'⟩ <;> rcases h2 with h2 | ⟨h2, h2'⟩
  · exact Or.inl (optLt_trans _ _ _ h2 h1)
  · exact Or.inl (h2 ▸ h1)
  · exact Or.inl (h1 ▸ h2)
  · exact Or.inr ⟨h1.trans h2, h1'.trans h2'⟩

/-- Token indices sorted by descending (modified) logit — the order of
`torch.topk(logits, top_k)` (line 57). -/
def sortIdxQ (vals : ℕ → ℚ) (n : ℕ) : List ℕ := List.insertionSort (relQ vals) (List.range n)

/-- Top-k filtering (lines 57-59): `-inf` except at the `k` best indices. -/
def topkVal (vals : ℕ → ℚ) (n k : ℕ) (i : ℕ) : Option ℚ :=
  if i ∈ (sortIdxQ vals n).take k then some (vals i) else none

/-- `torch.sort(logits_filtered, descending=True)` (line 62). -/
def sortIdxO (fv : ℕ → Option ℚ) (n : ℕ) : List ℕ := List.insertionSort (relO fv) (List.range n)

/-- `probs = torch.softmax(sorted_logits, dim=-1)` (line 63), listed by
sorted position. -/
def sortedProbs (E : ℚ → ℚ) (fv : ℕ → Option ℚ) (n : ℕ) : List ℚ :=
  let ws := (sortIdxO fv n).map (fun j => optWeight E (fv j))
  ws.map (fun w => w / ws.sum)

/-- Lines 64-72: the cumulative scan keeps the first `keptCount` sorted
positions (`sorted_logits[first_index + 1:] = -inf`), and
`final_logits[sorted_indices] = sorted_logits` scatters the cut vector back
to token ids, so token `i` survives iff its sorted position lies before the
cut. -/
def finalVal (E : ℚ → ℚ) (fv : ℕ → Option ℚ) (n : ℕ) (p : ℚ) (i : ℕ) : Option ℚ :=
  if (sortIdxO fv n).indexOf i < keptCount p (sortedProbs E fv n) then fv i else none

/-- `probabilities = torch.softmax(final_logits, dim=-1)` (line 74): the
final sampling distribution, evaluated at token `i`. -/
def stepFinalProb (E : ℚ → ℚ) (vals : ℕ → ℚ) (n k : ℕ) (p : ℚ) (i : ℕ) : ℚ :=
  optWeight E (finalVal E (topkVal vals n k) n p i) /
    ∑ j ∈ Finset.range n, optWeight E (finalVal E (topkVal vals n k) n p j)

/-- One full constrained decoding step of `sample_sequence` (lines 47-78):
apply the letter filter to the logits, then top-k, top-p and
renormalization; the probability that token `i` is sampled. -/
def samplerStep (E : ℚ → ℚ) (decode : ℕ → List Char) (letter : Char) (k : ℕ) (p : ℚ)
    (logits : List ℚ) (i : ℕ) : ℚ :=
  stepFinalProb E (fun j => (modifyLogits decode letter logits).getD j 0) logits.length k p i

theorem modifyAux_length (decode : ℕ → List Char) (letter : Char) :
    ∀ (l : List ℚ) (i : ℕ), (modifyAux decode letter i l).length = l.length := by
  intro l
  induction l with
  | nil => intro i; rfl
  | cons x rest ih => intro i; simp [modifyAux, ih]

theorem modifyAux_getD (decode : ℕ → List Char) (letter : Char) :
    ∀ (l : List ℚ) (k j : ℕ), j < l.length →
      (modifyAux decode letter k l).getD j 0 =
        if isForbidden decode letter (k + j) then l.getD j 0 - 20 else l.getD j 0 := by
  intro l
  induction l with
  | nil => intro k j hj; simp at hj
  | cons x rest ih =>
    intro k j hj
    match j with
    | 0 =>
      simp only [modifyAux, List.getD_cons_zero, Nat.add_zero]
      split <;> ring
    | (j' + 1) =>
      simp only [modifyAux, List.getD_cons_succ]
      have := ih (k + 1) j' (by simpa using Nat.lt_of_succ_lt_succ hj)
      rw [this]
      have harith : k + 1 + j' = k + (j' + 1) := by omega
      rw [harith]

theorem sorted_head_strict_top {r : ℕ → ℕ → Prop} {S : List ℕ} {n i : ℕ}
    (hperm : S.Perm (List.range n)) (hsorted : List.Sorted r S) (hi : i < n)
    (hstr : ∀ j, j < n → j ≠ i → ¬ r j i) : ∃ rest, S = i :: rest := by
  cases S with
  | nil =>
    have : i ∈ ([] : List ℕ) := hperm.mem_iff.2 (List.mem_range.2 hi)
    simp at this
  | cons h rest =>
    by_cases hhi : h = i
    · exact ⟨rest, by rw [hhi]⟩
    · have hhn : h ∈ List.range n := hperm.subset (List.mem_cons_self h rest)
      have hin : i ∈ h :: rest := hperm.mem_iff.2 (List.mem_range.2 hi)
      have hirest : i ∈ rest := by
        rcases List.mem_cons.1 hin with he | he
        · exact absurd he.symm hhi
        · exact he
      have hri := List.rel_of_sorted_cons hsorted i hirest
      exact absurd hri (hstr h (List.mem_range.1 hhn) hhi)

theorem optLt_irrefl (a : Option ℚ) : ¬ optLt a a := by
  cases a
  · exact fun h => h
  · exact lt_irrefl _

theorem keptCount_pos (p : ℚ) (l : List ℚ) (hl : 0 < l.length) : 1 ≤ keptCount p l := by
  cases l with
  | nil => simp at hl
  | cons q rest =>
    unfold keptCount keptAux
    split <;> omega

theorem optWeight_nonneg (E : ℚ → ℚ) (hE : ∀ q, 0 < E q) (a : Option ℚ) :
    0 ≤ optWeight E a := by
  cases a
  · exact le_refl 0
  · exact le_of_lt (hE _)

/-- A token that is the strict maximum of the (already constraint-modified)
logits keeps a strictly positive probability in the final
filtered+truncated+renormalized distribution, for every positive softmax
weight function, every `k ≥ 1` and every `p`. -/
theorem stepFinalProb_pos (E : ℚ → ℚ) (hE : ∀ q, 0 < E q) (vals : ℕ → ℚ) (n k : ℕ)
    (p : ℚ) (i : ℕ) (hi : i < n) (hk : 1 ≤ k)
    (htop : ∀ j, j < n → j ≠ i → vals j < vals i) :
    0 < stepFinalProb E vals n k p i := by
  have hstr1 : ∀ j, j < n → j ≠ i → ¬ relQ vals j i := by
    intro j hj hne hrel
    rcases hrel with h | ⟨h, _⟩
    · exact absurd h (not_lt_of_lt (htop j hj hne))
    · exact absurd (h ▸ htop j hj hne) (lt_irrefl _)
  obtain ⟨rest1, hS1⟩ := sorted_head_strict_top (S := sortIdxQ vals n)
    (List.perm_insertionSort (relQ vals) (List.range n)) 
    (List.sorted_insertionSort (relQ vals) (List.range n)) hi hstr1
  have hmem : i ∈ (sortIdxQ vals n).take k := by
    match k, hk with
    | (k' + 1), _ =>
      rw [hS1, List.take_succ_cons]
      exact List.mem_cons_self i _
  have hfvi : topkVal vals n k i = some (vals i) := by
    unfold topkVal
    rw [if_pos hmem]
  have htop2 : ∀ j, j < n → j ≠ i → optLt (topkVal vals n k j) (topkVal vals n k i) := by
    intro j hj hne
    rw [hfvi]
    unfold topkVal
    split
    · exact htop j hj hne
    · exact trivial
  have hstr2 : ∀ j, j < n → j ≠ i → ¬ relO (topkVal vals n k) j i := by
    intro j hj hne hrel
    rcases hrel with h | ⟨h, _⟩
    · exact absurd h (optLt_asymm _ _ (htop2 j hj hne))
    · exact absurd (h ▸ htop2 j hj hne) (optLt_irrefl _)
  obtain ⟨rest2, hS2⟩ := sorted_head_strict_top (S := sortIdxO (topkVal vals n k) n)
    (List.perm_insertionSort (relO (topkVal vals n k)) (List.range n))
    (List.sorted_insertionSort (relO (topkVal vals n k)) (List.range n)) hi hstr2
  have hlen : (sortedProbs E (topkVal vals n k) n).length = n := by
    unfold sortedProbs sortIdxO
    simp [(List.perm_insertionSort (relO (topkVal vals n k)) (List.range n)).length_eq]
  have hkc : 1 ≤ keptCount p (sortedProbs E (topkVal vals n k) n) :=
    keptCount_pos p _ (by omega)
  have hidx : (sortIdxO (topkVal vals n k) n).indexOf i = 0 := by
    rw [hS2]
    exact List.indexOf_cons_self i rest2
  have hfinal : finalVal E (topkVal vals n k) n p i = some (vals i) := by
    unfold finalVal
    rw [hidx, hfvi, if_pos (by omega)]
  unfold stepFinalProb
  apply div_pos
  · rw [hfinal]
    exact hE (vals i)
  · apply Finset.sum_pos'
    · intro j _
      exact optWeight_nonneg E hE _
    · refine ⟨i, Finset.mem_range.2 hi, ?_⟩
      rw [hfinal]
      exact hE (vals i)

/-- The decode table of the counterexample: token 0 decodes to `" dom"`
(word-initial, first letter `d`), every other token to `"x"`. -/
def decodeCE : ℕ → List Char := fun i => if i = 0 then (" dom").data else ("x").data

/-- The logits of the counterexample: token 0 has logit 30, the remaining
40 tokens have logit 0 (vocabulary size 41, the code's `TOP_K = 40`). -/
def logitsCE : List ℚ := 30 :: List.replicate 40 0

theorem getD_replicate_zero : ∀ (m j : ℕ), (List.replicate m (0 : ℚ)).getD j 0 = 0 := by
  intro m
  induction m with
  | zero => intro j; simp
  | succ m' ih =>
    intro j
    match j with
    | 0 => simp [List.replicate_succ]
    | (j' + 1) => simp [List.replicate_succ, List.getD_cons_succ, ih]

/-- C1 counterexample: with the code's `TOP_K = 40` and `TOP_P = 0.9` and
the constraint letter `p`, token 0 decodes to `" dom"` — it begins a new
word and its first letter `d` does not match `p` — yet its probability in
the final filtered+truncated+renormalized distribution is strictly
positive, because `modify_logits_for_letter_constraint` only subtracts the
finite penalty `20.0`; so a sample can contain a violating word-initial
token, refuting the probability-zero invariant. -/
theorem constraint_filter_not_exclusive :
    isForbidden decodeCE 'p' 0 = true ∧
    0 < samplerStep expQ decodeCE 'p' 40 (9/10) logitsCE 0 := by
  constructor
  · decide
  · unfold samplerStep
    apply stepFinalProb_pos expQ expQ_pos _ _ _ _ _ (by simp [logitsCE]) (by norm_num)
    intro j hj hne
    have hlen : logitsCE.length = 41 := by simp [logitsCE]
    have h0 : (modifyLogits decodeCE 'p' logitsCE).getD 0 0 = 10 := by
      unfold modifyLogits
      rw [modifyAux_getD decodeCE 'p' logitsCE 0 0 (by omega)]
      have hforb : isForbidden decodeCE 'p' (0 + 0) = true := by decide
      rw [hforb, if_pos rfl]
      norm_num [logitsCE]
    have hforbj : isForbidden decodeCE 'p' (0 + j) = false := by
      simp only [Nat.zero_add]
      unfold isForbidden decodeCE
      rw [if_neg hne]
      rfl
    have hj0 : (modifyLogits decodeCE 'p' logitsCE).getD j 0 = 0 := by
      unfold modifyLogits
      rw [modifyAux_getD decodeCE 'p' logitsCE 0 j (by omega), hforbj]
      simp only [if_false, Bool.false_eq_true]
      match j, hne with
      | (j' + 1), _ =>
        simp only [logitsCE, List.getD_cons_succ]
        exact getD_replicate_zero 40 j'
    rw [h0, hj0]
    norm_num

/-- C1 (amended): the letter-constraint filter subtracts exactly the fixed
finite penalty `20.0` from the logit of every candidate token whose decoded
text begins a new word with a first letter that does not case-insensitively
match the constraint letter, and leaves every other logit unchanged; the
penalty lowers but does not zero the final probability — in particular a
token that stays the strict maximum of the modified logits retains strictly
positive probability in the final filtered+truncated+renormalized
distribution, so word-initial violations remain possible in samples (the
scorer later penalizes them). -/
theorem letter_filter_penalty (decode : ℕ → List Char) (letter : Char) (logits : List ℚ) :
    (modifyLogits decode letter logits).length = logits.length ∧
    (∀ i, i < logits.length →
      (modifyLogits decode letter logits).getD i 0 =
        if isForbidden decode letter i then logits.getD i 0 - 20 else logits.getD i 0) ∧
    (∀ (E : ℚ → ℚ), (∀ q, 0 < E q) → ∀ (k : ℕ) (p : ℚ) (i : ℕ),
      i < logits.length → 1 ≤ k →
      (∀ j, j < logits.length → j ≠ i →
        (modifyLogits decode letter logits).getD j 0 <
          (modifyLogits decode letter logits).getD i 0) →
      0 < samplerStep E decode letter k p logits i) := by
  refine ⟨modifyAux_length decode letter logits 0, ?_, ?_⟩
  · intro i hi
    simpa using modifyAux_getD decode letter logits 0 i hi
  · intro E hE k p i hi hk htop
    unfold samplerStep
    exact stepFinalProb_pos E hE _ _ _ _ _ hi hk htop

/-- Witness for C1's amended statement at the counterexample instance. -/
theorem letter_filter_penalty_witness :
    (modifyLogits decodeCE 'p' logitsCE).length = 41 ∧
    (modifyLogits decodeCE 'p' logitsCE).getD 0 0 = 10 := by
  have h := letter_filter_penalty decodeCE 'p' logitsCE
  constructor
  · rw [h.1]
    simp [logitsCE]
  · rw [h.2.1 0 (by simp [logitsCE])]
    have hforb : isForbidden decodeCE 'p' 0 = true := by decide
    rw [hforb, if_pos rfl]
    norm_num [logitsCE]

/-! ### The router (`d.py`: `MaskedLMEngine`, `Router.answer_one`).

The masked-LM adapter is abstracted as an oracle record; everything the
router and engine compute themselves — pattern matching, reranking, control
flow — is embedded concretely.  The regex patterns are embedded as decidable
matchers; `.`-wildcards are modelled as arbitrary text, which coincides with
Python's semantics on the whitespace-normalized (newline-free) questions the
router feeds them. -/

/-- The masked-LM adapter boundary of `MaskedLMEngine`: the PLL score of a
text, the raw fill-mask pipeline predictions `(score, token_str)` for a
template, and the tokenizer's mask token string. -/
structure MLMmodel where
  pllS : List Char → ℚ
  fillRaw : List Char → List (ℚ × List Char)
  maskTok : List Char

/-- `str.replace(seg, repl)` with fuel (the fuel `l.length` always
suffices). -/
def replaceSegFuel (seg repl : List Char) : ℕ → List Char → List Char
  | 0, l => l
  | _ + 1, [] => []
  | fuel + 1, c :: rest =>
    if seg.isPrefixOf (c :: rest) && !seg.isEmpty then
      repl ++ replaceSegFuel seg repl fuel ((c :: rest).drop seg.length)
    else c :: replaceSegFuel seg repl fuel rest

/-- `str.replace(seg, repl)`: replace every occurrence, left to right. -/
def replaceSeg (seg repl l : List Char) : List Char := replaceSegFuel seg repl l.length l

/-- `MaskedLMEngine._clean_tok`: drop the BPE artifacts `Ġ` and `▁`,
then strip. -/
def cleanTok (w : List Char) : List Char :=
  pyStrip (w.filter (fun c => c ≠ 'Ġ' && c ≠ '▁'))

/-- `MaskedLMEngine.fill_one(template, topk)` (lines 152-163): substitute the
mask token for `<mask>`, query the pipeline, keep the first `limit`
predictions, clean each token string and drop the empty ones. -/
def fillOne (m : MLMmodel) (template : List Char) (limit : ℕ) : List (ℚ × List Char) :=
  ((m.fillRaw (replaceSeg (("<mask>").data) m.maskTok template)).take limit).filterMap
    (fun sc => if (cleanTok sc.2).isEmpty then none else some (sc.1, cleanTok sc.2))

/-- `" ".join(tokens)`. -/
def joinSpace : List (List Char) → List Char
  | [] => []
  | [x] => x
  | x :: rest => x ++ ' ' :: joinSpace rest

/-- Tokens at which `greedy_span` stops early. -/
def greedyStops : List (List Char) :=
  [(",").data, (".").data, (";").data, ("!").data, ("?").data, ("i").data]

/-- The loop of `MaskedLMEngine.greedy_span` (lines 165-182), with the
accumulated answer tokens kept in reverse. -/
def greedySpanAux (m : MLMmodel) (terminator : List Char) :
    ℕ → List Char → List (List Char) → List (List Char)
  | 0, _, acc => acc.reverse
  | fuel + 1, cur, acc =>
    match fillOne m (cur ++ (" <mask>").data ++ terminator) 5 with
    | [] => acc.reverse
    | (_, tok) :: _ =>
      if tok ∈ greedyStops then acc.reverse
      else greedySpanAux m terminator fuel (cur ++ (" ").data ++ tok) (tok :: acc)

/-- `greedy_span(prefix, max_tokens, terminator)`. -/
def greedySpan (m : MLMmodel) (pre : List Char) (maxTokens : ℕ) (terminator : List Char) :
    List Char :=
  pyStrip (joinSpace (greedySpanAux m terminator maxTokens pre []))

/-- Python's `list.sort(reverse=True)` comparison on `(score, token)` pairs:
descending score, descending token string on ties. -/
def pairGe (a b : ℚ × List Char) : Prop := b.1 < a.1 ∨ (a.1 = b.1 ∧ lexLe b.2 a.2)

instance : DecidableRel pairGe := fun a b => inferInstanceAs (Decidable (_ ∨ _))

/-- Rerank candidates by whole-sentence PLL: build `(pll(filled), token)`
pairs, sort descending, take the best (the common body of `ask_capital` and
the cloze templates). -/
def pllRerank (m : MLMmodel) (sent : List Char) (cands : List (List Char)) :
    Option (List Char) :=
  match List.insertionSort pairGe
      (cands.map (fun c => (m.pllS (replaceSeg (("<mask>").data) c sent), c))) with
  | [] => none
  | x :: _ => some x.2

/-- Remainder of `l` after the first occurrence of `seg` (`none` when `seg`
does not occur). -/
def dropAfterFirst (seg : List Char) : List Char → Option (List Char)
  | [] => if seg.isEmpty then some [] else none
  | c :: rest =>
    if seg.isPrefixOf (c :: rest) then some ((c :: rest).drop seg.length)
    else dropAfterFirst seg rest

/-- Matcher for the regex tail `.*m₁.*m₂…​.*mₙ$` (the final literal anchored
at the end); the empty segment list stands for an immediately-anchored `$`. -/
def chainEnd : List (List Char) → List Char → Bool
  | [], r => r.isEmpty
  | [m], r => m.isSuffixOf r
  | m :: ms, r =>
    match dropAfterFirst m r with
    | some r2 => chainEnd ms r2
    | none => false

/-- Matcher for an anchored case-insensitive regex `^first.*m₁…​.*mₙ$` (no
wildcard at all when `mids = []`). -/
def matchChain (first : List Char) (mids : List (List Char)) (s : List Char) : Bool :=
  let low := s.map toLowerPl
  first.isPrefixOf low && chainEnd mids (low.drop first.length)

/-- Matcher for `^lit\??$`: the literal, optionally followed by `?`. -/
def matchLitOptQ (lit : List Char) (s : List Char) : Bool :=
  matchChain lit [] s || matchChain (lit ++ [('?')]) [] s

/-- The lexicon of `answer_general` (`d.py` lines 212-222): anchored
case-insensitive patterns with fixed answers. -/
def lexicon : List ((List Char → Bool) × List Char) :=
  [ (matchLitOptQ (("jak brzmi nazwa terenowej łady").data), ("Niva").data),
    (matchChain (("jak nazywa się pojedynczy element schodów").data) [[('?')]], ("stopień").data),
    (matchLitOptQ (("jak nazywają się boczne pasy na mundurowych spodniach").data), ("lampasy").data),
    (matchLitOptQ (("jak nazywał się gigantyczny goryl, bohater filmów japońskich").data), ("King Kong").data),
    (matchChain (("jak z łaciny nazywa się dowód sądowy").data) [[('?')]], ("alibi").data),
    (matchChain (("który kolumbijski pisarz").data)
      [("1927").data, ("sto lat samotności").data, [('?')]], ("Gabriel García Márquez").data),
    (matchLitOptQ (("w którym wieku został odlany dzwon zygmunta").data), ("XVI").data),
    (fun s => matchChain (("z którego kontynentu pochodzi 90%").data) [("ryżu").data] s ||
      matchChain (("z którego kontynentu pochodzi 90%").data) [("ryżu?").data] s, ("Azja").data),
    (matchChain (("która organizacja powstała wcześniej:").data)
      [("ew").data, ("euratom").data, [('?')]], ("EWWiS").data) ]

/-- The cloze templates of `answer_general` (`d.py` lines 229-249):
`(matcher, sentence with <mask>, multi_token)`. -/
def clozeTemplates : List ((List Char → Bool) × List Char × Bool) :=
  [ (matchLitOptQ (("jak brzmi nazwa terenowej łady").data),
      ("Terenowa Łada to <mask>.").data, false),
    (matchChain (("jak nazywa się pojedynczy element schodów").data) [[('?')]],
      ("Pojedynczy element schodów to <mask>.").data, false),
    (matchLitOptQ (("jak nazywają się boczne pasy na mundurowych spodniach").data),
      ("Boczne pasy na mundurowych spodniach to <mask>.").data, false),
    (matchLitOptQ (("jak nazywał się gigantyczny goryl, bohater filmów japońskich").data),
      ("Gigantyczny goryl z filmów nazywał się <mask>.").data, false),
    (matchChain (("jak z łaciny nazywa się dowód sądowy").data) [[('?')]],
      ("Dowód nieobecności sprawcy na miejscu to po łacinie <mask>.").data, false),
    (matchChain (("który kolumbijski pisarz").data)
      [("1927").data, ("sto lat samotności").data, [('?')]],
      ("Autorem „Stu lat samotności” jest <mask>.").data, true),
    (matchLitOptQ (("w którym wieku został odlany dzwon zygmunta").data),
      ("Dzwon Zygmunt odlano w <mask> wieku.").data, false),
    (fun s => matchChain (("z którego kontynentu pochodzi 90%").data) [("ryżu").data] s ||
      matchChain (("z którego kontynentu pochodzi 90%").data) [("ryżu?").data] s,
      ("Dziewięćdziesiąt procent światowej produkcji ryżu pochodzi z <mask>.").data, false),
    (matchChain (("która organizacja powstała wcześniej:").data)
      [("ew").data, ("euratom").data, [('?')]],
      ("<mask> powstała wcześniej.").data, false) ]

/-- Text before the first `<mask>` (`sent.split("<mask>")[0]`). -/
def takeUntilSeg (seg : List Char) : List Char → List Char
  | [] => []
  | c :: rest => if seg.isPrefixOf (c :: rest) then [] else c :: takeUntilSeg seg rest

/-- `str.strip(" .")`. -/
def stripDotSpace (l : List Char) : List Char :=
  let p : Char → Bool := fun c => c = ' ' || c = '.'
  ((l.dropWhile p).reverse.dropWhile p).reverse

/-- `re.sub(r"^(państwa|kraju|krajem|w|we|z|ze)\s+", "", country, re.I)`:
drop a recognized leading word (first alternative whose match, including the
mandatory following whitespace, succeeds). -/
def dropCountryWord (c : List Char) : List Char :=
  let low := c.map toLowerPl
  let alts := [("państwa").data, ("kraju").data, ("krajem").data,
    ("w").data, ("we").data, ("z").data, ("ze").data]
  match alts.find? (fun w => w.isPrefixOf low && !((low.drop w.length).takeWhile isWS).isEmpty) with
  | some w => (c.drop w.length).dropWhile isWS
  | none => c

/-- Group of `^jaka jest stolica\s+(.+?)\?$` / `^stolica\s+(.+?)\?$`
(case-insensitive; on whitespace-normalized input): after the literal and at
least one whitespace, the group is everything before a final `?`. -/
def capGroupAfter (lit : List Char) (s : List Char) : Option (List Char) :=
  let low := s.map toLowerPl
  if lit.isPrefixOf low then
    let rest := s.drop lit.length
    if (rest.takeWhile isWS).isEmpty then none
    else
      let tail := rest.dropWhile isWS
      match tail.getLast? with
      | some '?' => if tail.dropLast.isEmpty then none else some tail.dropLast
      | _ => none
  else none

/-- Tail `\s+jest\s*\??$` of the third capital pattern. -/
def capTail3 (rem : List Char) : Bool :=
  if (rem.takeWhile isWS).isEmpty then false
  else
    let r2 := rem.dropWhile isWS
    if (("jest").data).isPrefixOf (r2.map toLowerPl) then
      let r4 := (r2.drop 4).dropWhile isWS
      r4.isEmpty || r4 = [('?')]
    else false

/-- Shortest nonempty group (non-greedy `(.+?)`) whose remainder matches
`capTail3`. -/
def capGroup3Aux : List Char → List Char → Option (List Char)
  | acc, [] =>
    let _ := acc
    none
  | acc, c :: rem =>
    if capTail3 rem then some (acc ++ [c]) else capGroup3Aux (acc ++ [c]) rem

/-- Group of `^stolicą\s+(.+?)\s+jest\s*\??$`. -/
def capGroup3 (s : List Char) : Option (List Char) :=
  let low := s.map toLowerPl
  let lit := ("stolicą").data
  if lit.isPrefixOf low then
    let rest := s.drop lit.length
    if (rest.takeWhile isWS).isEmpty then none
    else capGroup3Aux [] (rest.dropWhile isWS)
  else none

/-- Python `str.islower` on the initial character, for the letters in use. -/
def isLowerPl (c : Char) : Bool :=
  c.isLower || ("ąćęłńóśźż").data.contains c

/-- Uppercasing of the initial character (`country[0].upper()`). -/
def toUpperPl (c : Char) : Char :=
  if c.isLower then c.toUpper
  else if c = 'ą' then 'Ą' else if c = 'ć' then 'Ć' else if c = 'ę' then 'Ę'
  else if c = 'ł' then 'Ł' else if c = 'ń' then 'Ń' else if c = 'ó' then 'Ó'
  else if c = 'ś' then 'Ś' else if c = 'ź' then 'Ź' else if c = 'ż' then 'Ż'
  else c

/-- `MaskedLMEngine.ask_capital` (`d.py` lines 185-198): normalize and
capitalize the country, fill `"Stolicą (country) jest <mask>."`, rerank the
five candidate fillers by whole-sentence PLL. -/
def askCapital (m : MLMmodel) (countryRaw : List Char) : Option (List Char) :=
  let c0 := normalizeWS countryRaw
  let country :=
    match c0 with
    | [] => c0
    | ch :: rest => if isLowerPl ch then toUpperPl ch :: rest else c0
  let sent := ("Stolicą ").data ++ country ++ (" jest <mask>.").data
  match (fillOne m sent 5).map Prod.snd with
  | [] => none
  | cands => pllRerank m sent cands

/-- `MaskedLMEngine.yes_no` (`d.py` lines 200-205): compare the PLL of the
question continued by `" Tak."` and `" Nie."`; ties answer `"Nie"`. -/
def yesNo (m : MLMmodel) (q : List Char) : List Char :=
  if m.pllS (pyStrip q ++ (" Tak.").data) > m.pllS (pyStrip q ++ (" Nie.").data)
  then ("Tak").data else ("Nie").data

/-- The stages of `Router.answer_one`, in the code's `dbg` vocabulary. -/
inductive Stage where
  | arith
  | yesNo
  | capital
  | lexicon
  | clozeTemplates
  | genericCloze
  | unknown
deriving DecidableEq

/-- The single-token branch of a matched cloze template: five fillers,
reranked by whole-sentence PLL. -/
def templateSingle (m : MLMmodel) (sent : List Char) : Option (List Char) :=
  match (fillOne m sent 5).map Prod.snd with
  | [] => none
  | cands => pllRerank m sent cands

/-- `MaskedLMEngine.answer_general` (`d.py` lines 207-275) returning the
answer together with the stages evaluated inside it: the lexicon patterns
always, the cloze templates when the lexicon missed, the generic cloze when
no template matched.  A matching template that yields no usable filler makes
`answer_general` return `None` without trying the generic fallback. -/
def answerGeneral (m : MLMmodel) (q : List Char) : Option (List Char) × List Stage :=
  match lexicon.find? (fun pa => pa.1 (normalizeWS q)) with
  | some pa => (some pa.2, [Stage.lexicon])
  | none =>
    match clozeTemplates.find? (fun t => t.1 (normalizeWS q)) with
    | some t =>
      if t.2.2 then
        if (greedySpan m (rstrip (pyStrip (takeUntilSeg (("<mask>").data) t.2.1))) 3
            ((".").data)).isEmpty then
          (templateSingle m t.2.1, [Stage.lexicon, Stage.clozeTemplates])
        else
          (some (greedySpan m (rstrip (pyStrip (takeUntilSeg (("<mask>").data) t.2.1))) 3
            ((".").data)), [Stage.lexicon, Stage.clozeTemplates])
      else (templateSingle m t.2.1, [Stage.lexicon, Stage.clozeTemplates])
    | none =>
      match (fillOne m (normalizeWS q ++ (" Odpowiedź: <mask>.").data) 3).map Prod.snd with
      | [] => (none, [Stage.lexicon, Stage.clozeTemplates, Stage.genericCloze])
      | c :: _ => (some c, [Stage.lexicon, Stage.clozeTemplates, Stage.genericCloze])

/-- The capital stage of `Router.answer_one` (`d.py` lines 302-314): the
first matching capital pattern extracts the country (dropping a known
preposition and stripping `" ."`), asks `ask_capital`, and — matching the
loop's `break` — later patterns are not tried when the first match fails. -/
def capitalTry (m : MLMmodel) (qc : List Char) : Option (List Char) :=
  let resolve : List Char → Option (List Char) := fun g =>
    match askCapital m (stripDotSpace (dropCountryWord g)) with
    | some a => if a.isEmpty then none else some a
    | none => none
  match capGroupAfter (("jaka jest stolica").data) qc with
  | some g => resolve g
  | none =>
    match capGroupAfter (("stolica").data) qc with
    | some g => resolve g
    | none =>
      match capGroup3 qc with
      | some g => resolve g
      | none => none

/-- `Router.answer_one` (`d.py` lines 286-323), instrumented with the list
of stages evaluated, in evaluation order: arithmetic heuristic; the
`"czy "` yes/no test; the capital patterns; then `answer_general` (lexicon,
cloze templates, generic cloze); finally the `"nie wiem"` sentinel. -/
def answerOne (fmt : ℚ → List Char) (evalO : List Char → Option (List Char))
    (m : MLMmodel) (q : List Char) : List Char × List Stage :=
  match tryArithmetic fmt evalO (normalizeWS q) with
  | some a => (a, [Stage.arith])
  | none =>
    if (("czy ").data).isPrefixOf ((normalizeWS q).map toLowerPl) then
      (yesNo m (normalizeWS q), [Stage.arith, Stage.yesNo])
    else
      match capitalTry m (normalizeWS q) with
      | some ans => (ans, [Stage.arith, Stage.yesNo, Stage.capital])
      | none =>
        match answerGeneral m (normalizeWS q) with
        | (some a, tg) =>
          if a.isEmpty then
            (("nie wiem").data, [Stage.arith, Stage.yesNo, Stage.capital] ++ tg ++ [Stage.unknown])
          else (a, [Stage.arith, Stage.yesNo, Stage.capital] ++ tg)
        | (none, tg) =>
          (("nie wiem").data, [Stage.arith, Stage.yesNo, Stage.capital] ++ tg ++ [Stage.unknown])

/-- The fixed stage order of the router. -/
def canonicalOrder : List Stage :=
  [Stage.arith, Stage.yesNo, Stage.capital, Stage.lexicon, Stage.clozeTemplates,
    Stage.genericCloze, Stage.unknown]

theorem dropWhile_idem (p : Char → Bool) (l : List Char) :
    (l.dropWhile p).dropWhile p = l.dropWhile p := by
  induction l with
  | nil => rfl
  | cons c rest ih =>
    by_cases h : p c
    · simp [List.dropWhile_cons, h, ih]
    · simp [List.dropWhile_cons, h]

theorem dropWhile_append_last (p : Char → Bool) (c : Char) (hc : p c = false) :
    ∀ xs : List Char, ∃ ys, (xs ++ [c]).dropWhile p = ys ++ [c] := by
  intro xs
  induction xs with
  | nil => exact ⟨[], by simp [List.dropWhile_cons, hc]⟩
  | cons x xs ih =>
    by_cases h : p x
    · obtain ⟨ys, hys⟩ := ih
      exact ⟨ys, by simp [List.dropWhile_cons, h, hys]⟩
    · exact ⟨x :: xs, by simp [List.dropWhile_cons, h]⟩

theorem rstrip_cons_nonws (c : Char) (hc : isWS c = false) (l : List Char) :
    ∃ t, rstrip (c :: l) = c :: t := by
  obtain ⟨ys, hys⟩ := dropWhile_append_last isWS c hc l.reverse
  refine ⟨ys.reverse, ?_⟩
  unfold rstrip
  rw [List.reverse_cons, hys, List.reverse_append]
  rfl

theorem rstrip_idem (l : List Char) : rstrip (rstrip l) = rstrip l := by
  unfold rstrip
  rw [List.reverse_reverse, dropWhile_idem]

theorem head_dropWhile_not (p : Char → Bool) :
    ∀ (l : List Char) (c : Char) (rest : List Char), l.dropWhile p = c :: rest →
      p c = false := by
  intro l
  induction l with
  | nil => intro c rest h; simp at h
  | cons x xs ih =>
    intro c rest h
    by_cases hx : p x
    · rw [List.dropWhile_cons, if_pos hx] at h
      exact ih c rest h
    · rw [List.dropWhile_cons, if_neg hx] at h
      cases h
      exact eq_false_of_ne_true hx

theorem pyStrip_idem (l : List Char) : pyStrip (pyStrip l) = pyStrip l := by
  unfold pyStrip
  rcases ha : (l.dropWhile isWS) with _ | ⟨c, rest⟩
  · rfl
  · have hc : isWS c = false := head_dropWhile_not isWS l c rest ha
    obtain ⟨t, ht⟩ := rstrip_cons_nonws c hc rest
    rw [ht, List.dropWhile_cons, if_neg (by simp [hc]), ← ht, rstrip_idem]

theorem normalizeWS_strip (l : List Char) : pyStrip (normalizeWS l) = normalizeWS l := by
  unfold normalizeWS
  exact pyStrip_idem _

theorem stripTrailingQ_cons (c : Char) (hc : c ≠ '?') (t : List Char) :
    ∃ u, stripTrailingQ (c :: t) = c :: u := by
  unfold stripTrailingQ
  split
  · match t with
    | [] =>
      rename_i hlast
      simp at hlast
      exact absurd hlast hc
    | x :: xs => exact ⟨(x :: xs).dropLast, rfl⟩
  · exact ⟨t, rfl⟩

theorem matchTrigger_c_head (t : List Char) : matchTrigger ('c' :: t) = none := rfl

theorem tryArithmetic_czy (fmt : ℚ → List Char) (evalO : List Char → Option (List Char))
    (qc : List Char) (t : List Char) (ht : qc.map toLowerPl = 'c' :: 'z' :: 'y' :: ' ' :: t) :
    tryArithmetic fmt evalO qc = none := by
  unfold tryArithmetic arithExpr
  rw [ht]
  have h1 : pyStrip ('c' :: 'z' :: 'y' :: ' ' :: t) =
      'c' :: (rstrip ('z' :: 'y' :: ' ' :: t) : List Char) ∨
      ∃ u, pyStrip ('c' :: 'z' :: 'y' :: ' ' :: t) = 'c' :: u := by
    right
    unfold pyStrip
    rw [List.dropWhile_cons, if_neg (by decide)]
    exact rstrip_cons_nonws 'c' (by decide) _
  rcases h1 with h1 | ⟨u, hu⟩
  · rw [h1]
    obtain ⟨v, hv⟩ := stripTrailingQ_cons 'c' (by decide) _
    rw [hv, matchTrigger_c_head]
  · rw [hu]
    obtain ⟨v, hv⟩ := stripTrailingQ_cons 'c' (by decide) u
    rw [hv, matchTrigger_c_head]

/-- C6: every question whose normalized form starts (case-insensitively)
with the yes/no marker `"czy "` is resolved by the yes/no PLL stage: the
router returns exactly `"Tak"` or `"Nie"` — never `"nie wiem"` — and it
returns `"Tak"` iff `PLL(question + " Tak.")` is strictly greater than
`PLL(question + " Nie.")`, ties defaulting to `"Nie"`. -/
theorem czy_resolves_yes_no (fmt : ℚ → List Char) (evalO : List Char → Option (List Char))
    (m : MLMmodel) (q : List Char)
    (h : (("czy ").data).isPrefixOf ((normalizeWS q).map toLowerPl) = true) :
    (answerOne fmt evalO m q).1 = yesNo m (normalizeWS q) ∧
    ((answerOne fmt evalO m q).1 = ("Tak").data ∨ (answerOne fmt evalO m q).1 = ("Nie").data) ∧
    (answerOne fmt evalO m q).1 ≠ ("nie wiem").data ∧
    ((answerOne fmt evalO m q).1 = ("Tak").data ↔
      m.pllS (normalizeWS q ++ (" Tak.").data) > m.pllS (normalizeWS q ++ (" Nie.").data)) := by
  obtain ⟨t, ht⟩ : ∃ t, (normalizeWS q).map toLowerPl = 'c' :: 'z' :: 'y' :: ' ' :: t := by
    obtain ⟨t, ht⟩ := (List.isPrefixOf_iff_prefix.1 h)
    exact ⟨t, ht.symm⟩
  have harith := tryArithmetic_czy fmt evalO (normalizeWS q) t ht
  have hmain : answerOne fmt evalO m q = (yesNo m (normalizeWS q),
      [Stage.arith, Stage.yesNo]) := by
    unfold answerOne
    rw [harith, if_pos h]
  rw [hmain]
  have hstrip : pyStrip (normalizeWS q) = normalizeWS q := normalizeWS_strip q
  refine ⟨rfl, ?_, ?_, ?_⟩
  · unfold yesNo
    split
    · exact Or.inl rfl
    · exact Or.inr rfl
  · unfold yesNo
    split
    · decide
    · decide
  · unfold yesNo
    rw [hstrip]
    split
    · rename_i hgt
      simpa using hgt
    · rename_i hgt
      constructor
      · intro habs
        exact absurd habs (by decide)
      · intro hc
        exact absurd hc hgt

/-- Witness for C6 at the concrete question `"Czy x?"` with an oracle that
prefers the `" Tak."` continuation. -/
theorem czy_resolves_yes_no_witness :
    ((answerOne (fun _ => []) (fun _ => none)
        ⟨fun s => if s = ("Czy x? Tak.").data then 1 else 0, fun _ => [], ("<mask>").data⟩
        (("Czy x?").data)).1 = ("Tak").data ∨
      (answerOne (fun _ => []) (fun _ => none)
        ⟨fun s => if s = ("Czy x? Tak.").data then 1 else 0, fun _ => [], ("<mask>").data⟩
        (("Czy x?").data)).1 = ("Nie").data) ∧
    (answerOne (fun _ => []) (fun _ => none)
        ⟨fun s => if s = ("Czy x? Tak.").data then 1 else 0, fun _ => [], ("<mask>").data⟩
        (("Czy x?").data)).1 ≠ ("nie wiem").data := by
  have h := czy_resolves_yes_no (fun _ => []) (fun _ => none)
    ⟨fun s => if s = ("Czy x? Tak.").data then 1 else 0, fun _ => [], ("<mask>").data⟩
    (("Czy x?").data) (by decide)
  exact ⟨h.2.1, h.2.2.1⟩

theorem answerGeneral_trace (m : MLMmodel) (q : List Char) :
    (answerGeneral m q).2 = [Stage.lexicon] ∨
    (answerGeneral m q).2 = [Stage.lexicon, Stage.clozeTemplates] ∨
    (answerGeneral m q).2 = [Stage.lexicon, Stage.clozeTemplates, Stage.genericCloze] := by
  unfold answerGeneral
  split
  · exact Or.inl rfl
  · split
    · split
      · split
        · exact Or.inr (Or.inl rfl)
        · exact Or.inr (Or.inl rfl)
      · exact Or.inr (Or.inl rfl)
    · split
      · exact Or.inr (Or.inr rfl)
      · exact Or.inr (Or.inr rfl)

/-- Traces through `answer_general` extend the router trace inside the
canonical order. -/
theorem sublist_canonical_parts (tg : List Stage)
    (htg : tg = [Stage.lexicon] ∨ tg = [Stage.lexicon, Stage.clozeTemplates] ∨
      tg = [Stage.lexicon, Stage.clozeTemplates, Stage.genericCloze]) :
    ([Stage.arith, Stage.yesNo, Stage.capital] ++ tg).Sublist canonicalOrder ∧
    ([Stage.arith, Stage.yesNo, Stage.capital] ++ tg ++ [Stage.unknown]).Sublist canonicalOrder ∧
    ([Stage.arith, Stage.yesNo, Stage.capital] ++ tg).head? = some Stage.arith ∧
    ([Stage.arith, Stage.yesNo, Stage.capital] ++ tg ++ [Stage.unknown]).head? =
      some Stage.arith := by
  rcases htg with h | h | h <;> subst h <;> exact ⟨by decide, by decide, rfl, rfl⟩

/-- C3 (amended): the router evaluates its stages in the fixed order
arithmetic heuristic → yes/no test → capital patterns → lexicon lookup →
cloze templates → generic cloze → `"nie wiem"`; every run's evaluated-stage
trace is a nonempty selection (a sublist) of that order starting at the
arithmetic stage — in particular the yes/no PLL comparison is evaluated
*before* the lexicon lookup, not after it — and the first stage that
produces a non-empty result determines the returned answer: either the
arithmetic heuristic answers, or it declines and a `"czy "` question is
answered by the yes/no stage, or both decline and a matching capital
pattern answers, or all three decline and `answer_general` (lexicon →
templates → generic) supplies a non-empty answer, or every stage declines
(or yields the empty string) and the answer is the `"nie wiem"` sentinel. -/
theorem router_stage_order (fmt : ℚ → List Char) (evalO : List Char → Option (List Char))
    (m : MLMmodel) (q : List Char) :
    (answerOne fmt evalO m q).2.Sublist canonicalOrder ∧
    (answerOne fmt evalO m q).2.head? = some Stage.arith ∧
    ((∃ a, tryArithmetic fmt evalO (normalizeWS q) = some a ∧
        answerOne fmt evalO m q = (a, [Stage.arith])) ∨
     (tryArithmetic fmt evalO (normalizeWS q) = none ∧
        (("czy ").data).isPrefixOf ((normalizeWS q).map toLowerPl) = true ∧
        answerOne fmt evalO m q = (yesNo m (normalizeWS q), [Stage.arith, Stage.yesNo])) ∨
     (tryArithmetic fmt evalO (normalizeWS q) = none ∧
        (("czy ").data).isPrefixOf ((normalizeWS q).map toLowerPl) = false ∧
        (∃ a, capitalTry m (normalizeWS q) = some a ∧
          answerOne fmt evalO m q = (a, [Stage.arith, Stage.yesNo, Stage.capital]))) ∨
     (tryArithmetic fmt evalO (normalizeWS q) = none ∧
        (("czy ").data).isPrefixOf ((normalizeWS q).map toLowerPl) = false ∧
        capitalTry m (normalizeWS q) = none ∧
        (∃ a, (answerGeneral m (normalizeWS q)).1 = some a ∧ a ≠ [] ∧
          answerOne fmt evalO m q =
            (a, [Stage.arith, Stage.yesNo, Stage.capital] ++
              (answerGeneral m (normalizeWS q)).2))) ∨
     (tryArithmetic fmt evalO (normalizeWS q) = none ∧
        (("czy ").data).isPrefixOf ((normalizeWS q).map toLowerPl) = false ∧
        capitalTry m (normalizeWS q) = none ∧
        ((answerGeneral m (normalizeWS q)).1 = none ∨
          (answerGeneral m (normalizeWS q)).1 = some []) ∧
        answerOne fmt evalO m q =
          (("nie wiem").data, [Stage.arith, Stage.yesNo, Stage.capital] ++
            (answerGeneral m (normalizeWS q)).2 ++ [Stage.unknown]))) := by
  unfold answerOne
  split
  · rename_i a heq
    refine ⟨?_, rfl, Or.inl ⟨a, heq, rfl⟩⟩
    show List.Sublist [Stage.arith] canonicalOrder
    decide
  · rename_i heq
    split
    · rename_i hczy
      refine ⟨?_, rfl, Or.inr (Or.inl ⟨heq, hczy, rfl⟩)⟩
      show List.Sublist [Stage.arith, Stage.yesNo] canonicalOrder
      decide
    · rename_i hczy
      have hczy' : (("czy ").data).isPrefixOf ((normalizeWS q).map toLowerPl) = false :=
        eq_false_of_ne_true hczy
      split
      · rename_i a hcap
        refine ⟨?_, rfl, Or.inr (Or.inr (Or.inl ⟨heq, hczy', a, hcap, rfl⟩))⟩
        show List.Sublist [Stage.arith, Stage.yesNo, Stage.capital] canonicalOrder
        decide
      · rename_i hcap
        split
        · rename_i a tg hgen
          have htr : tg = [Stage.lexicon] ∨ tg = [Stage.lexicon, Stage.clozeTemplates] ∨
              tg = [Stage.lexicon, Stage.clozeTemplates, Stage.genericCloze] := by
            have h0 := answerGeneral_trace m (normalizeWS q)
            rw [hgen] at h0
            exact h0
          have hh := sublist_canonical_parts tg htr
          split
          · rename_i hemp
            have ha : a = [] := by simpa using hemp
            refine ⟨hh.2.1, hh.2.2.2,
              Or.inr (Or.inr (Or.inr (Or.inr ⟨heq, hczy', hcap, ?_, ?_⟩)))⟩
            · rw [hgen, ha]
              exact Or.inr rfl
            · rw [hgen]
          · rename_i hemp
            have ha : a ≠ [] := by simpa using hemp
            refine ⟨hh.1, hh.2.2.1,
              Or.inr (Or.inr (Or.inr (Or.inl ⟨heq, hczy', hcap, a, ?_, ha, ?_⟩)))⟩
            · rw [hgen]
            · rw [hgen]
        · rename_i tg hgen
          have htr : tg = [Stage.lexicon] ∨ tg = [Stage.lexicon, Stage.clozeTemplates] ∨
              tg = [Stage.lexicon, Stage.clozeTemplates, Stage.genericCloze] := by
            have h0 := answerGeneral_trace m (normalizeWS q)
            rw [hgen] at h0
            exact h0
          have hh := sublist_canonical_parts tg htr
          refine ⟨hh.2.1, hh.2.2.2,
            Or.inr (Or.inr (Or.inr (Or.inr ⟨heq, hczy', hcap, ?_, ?_⟩)))⟩
          · rw [hgen]
            exact Or.inl rfl
          · rw [hgen]

/-- The all-zero masked-LM oracle used for concrete router runs. -/
def mZero : MLMmodel := ⟨fun _ => 0, fun _ => [], ("<mask>").data⟩

/-- C3 counterexample: on the yes/no question `"czy Polska jest w Europie?"`
the router's evaluated stages are exactly arithmetic followed by the yes/no
PLL comparison — the exact-pattern lexicon lookup is never attempted, so
the claimed order (lexicon lookup before the yes/no PLL comparison) is
false for this run. -/
theorem yesno_before_lexicon_cex :
    (answerOne (fun _ => []) (fun _ => none) mZero
        (("czy Polska jest w Europie?").data)).2 = [Stage.arith, Stage.yesNo] ∧
    Stage.lexicon ∉ (answerOne (fun _ => []) (fun _ => none) mZero
        (("czy Polska jest w Europie?").data)).2 := by
  constructor
  · decide
  · decide

end Spec2Proof
